import Mathlib

/-!
Verification of the `bitbuf-vlq` crate (`src/lib.rs`): a prefix-based
variable-length quantity codec for `u64` values, together with the
resumable reader `AsyncReadVlq`.

The bit-level buffer abstraction (`bitbuf` crate: `BitSliceMut`,
`read_bool`, `read_all`, `Fill`, `CappedFill`) is an external dependency
of the repository.  It is modelled here by explicit lists of booleans in
stream order: a byte contributes its bits most-significant first, a write
appends bits, a read consumes bits from the front.
-/

namespace BitbufVlq

/-- Value of a byte whose bit at MSB-first position `i` (i.e. weight
`2^(7-i)`) is `f i`.  This is the shared shape of byte packing and of
`u8::reverse_bits`. -/
def mirror8 (f : Nat → Bool) : Nat :=
  (if f 0 then 128 else 0) + (if f 1 then 64 else 0) + (if f 2 then 32 else 0) +
  (if f 3 then 16 else 0) + (if f 4 then 8 else 0) + (if f 5 then 4 else 0) +
  (if f 6 then 2 else 0) + (if f 7 then 1 else 0)

/-- Pack up to 8 bits (stream order, MSB first) into a byte; missing bits
stay zero.  Models writing a bit sequence into a zeroed byte of the
backing array, and `read_byte` on a filled 8-bit buffer. -/
def packByte (l : List Bool) : Nat := mirror8 (fun i => l.getD i false)

/-- `u8::reverse_bits`: bit `i` of the input becomes bit `7 - i`. -/
def reverseBits8 (b : Nat) : Nat := mirror8 (fun i => b.testBit i)

/-- The 8 bits of a byte in stream (MSB-first) order. -/
def byteBits (b : Nat) : List Bool :=
  [b.testBit 7, b.testBit 6, b.testBit 5, b.testBit 4,
   b.testBit 3, b.testBit 2, b.testBit 1, b.testBit 0]

/-- A byte sequence as a bit stream. -/
def bytesToBits (bs : List Nat) : List Bool := bs.flatMap byteBits

/-- `u64::from_le_bytes`: first byte is least significant. -/
def leBytesToNat (bs : List Nat) : Nat := bs.foldr (fun b acc => b + 256 * acc) 0

/-- `u64::to_le_bytes` of `n` (8 bytes, least significant first). -/
def u64LeBytes (n : Nat) : List Nat := (List.range 8).map fun j => n / 256 ^ j % 256

/-- The low `w` bits of `n`, least significant first. -/
def natBits (w n : Nat) : List Bool := (List.range w).map n.testBit

/-- `u8::leading_zeros`. -/
def leadingZeros8 (b : Nat) : Nat :=
  if b.testBit 7 then 0 else if b.testBit 6 then 1 else if b.testBit 5 then 2
  else if b.testBit 4 then 3 else if b.testBit 3 then 4 else if b.testBit 2 then 5
  else if b.testBit 1 then 6 else if b.testBit 0 then 7 else 8

/-- `encode_len` from `src/lib.rs`: the length class of a value. -/
def encode_len (n : Nat) : Nat :=
  if n < 2 ^ 7 then 0
  else if n < 2 ^ 14 then 1
  else if n < 2 ^ 20 then 2
  else if n < 2 ^ 28 then 3
  else if n < 2 ^ 35 then 4
  else if n < 2 ^ 42 then 5
  else if n < 2 ^ 49 then 6
  else if n < 2 ^ 56 then 7
  else 8

/-- `decode_len` from `src/lib.rs`: logical byte length from the first byte. -/
def decode_len (b : Nat) : Nat := leadingZeros8 b + 1

/-- The `match` mapping a length class to its payload bit width, in both
`From<T> for Vlq` and `Vlq::read`; the wildcard arm panics (`none`). -/
def lenWidth (c : Nat) : Option Nat :=
  if c = 0 then some 7
  else if c = 1 then some 14
  else if c = 2 then some 20
  else if c = 3 then some 28
  else if c = 4 then some 35
  else if c = 5 then some 42
  else if c = 6 then some 49
  else if c = 7 then some 56
  else if c = 8 then some 64
  else none

/-! ### Encoder: `impl<T: Into<u64>> From<T> for Vlq`

The encoder writes into a `BitSliceMut` over a zeroed `[u8; 9]`
(capacity 72 bits).  The writer state is the list of bits written so
far; each `unwrap` on a failed write is modelled by `Option`. -/

/-- `BitBufMut::write_bool` into a 72-bit slice: fails when full. -/
def writeBool (st : List Bool) (b : Bool) : Option (List Bool) :=
  if st.length < 72 then some (st ++ [b]) else none

/-- `BitBufMut::write(&bytes, len)`: append the first `len` bits of a bit
sequence; fails when the source is shorter than `len` or the slice
cannot hold `len` more bits. -/
def writeBits (st : List Bool) (src : List Bool) (len : Nat) : Option (List Bool) :=
  if len ≤ src.length ∧ st.length + len ≤ 72 then some (st ++ src.take len) else none

/-- The `for _ in 0..len` loop of zero-bit writes. -/
def writeZeros (st : List Bool) : Nat → Option (List Bool)
  | 0 => some st
  | k + 1 => do writeZeros (← writeBool st false) k

/-- The `if len != 8 { buf.write_bool(true).unwrap(); }` statement. -/
def writeTerm (st : List Bool) (c : Nat) : Option (List Bool) :=
  if c ≠ 8 then writeBool st true else some st

/-- `Vlq::from`: full 72-bit content of the backing `[u8; 9]` array
(`none` when one of the source's panics would fire). -/
def vlqFrom (n : Nat) : Option (List Bool) := do
  let st ← writeZeros [] (encode_len n)
  let st ← writeTerm st (encode_len n)
  let w ← lenWidth (encode_len n)
  let st ← writeBits st (bytesToBits ((u64LeBytes n).map reverseBits8)) w
  pure (st ++ List.replicate (72 - st.length) false)

/-- The backing array of `Vlq::from` as 9 bytes. -/
def vlqBytesArr (n : Nat) : Option (List Nat) :=
  (vlqFrom n).map fun bits => (List.range 9).map fun j => packByte ((bits.drop (8 * j)).take 8)

/-- `Deref for Vlq`: the first `decode_len(self.0[0])` bytes. -/
def vlqDeref (n : Nat) : Option (List Nat) :=
  (vlqBytesArr n).map fun bs => bs.take (decode_len (bs.headD 0))

/-- Byte length of the `Deref` slice of `Vlq::from(n)`. -/
def encodedByteLength (n : Nat) : Nat := ((vlqDeref n).getD []).length

/-- The bit stream of the `Deref` slice (what the doc example writes to a
buffer and hands to `Vlq::read`). -/
def vlqSliceBits (n : Nat) : Option (List Bool) := (vlqDeref n).map bytesToBits

/-! ### Decoder: `Vlq::read` -/

/-- The zero-counting prefix loop of `Vlq::read`: consume bits until a
one bit or 8 zero bits; stop on exhaustion.  Returns the final count and
the remaining stream. -/
def countZeros : List Bool → Nat → Nat × List Bool
  | [], len => (len, [])
  | b :: rest, len =>
    if b then (len, rest)
    else if len + 1 = 8 then (len + 1, rest)
    else countZeros rest (len + 1)

/-- Result of `BitBuf::read_all(&mut data, len)` into an `[u8; 8]`
destination: the 8 destination bytes and the remaining stream, or the
`UnalignedError` case that occurred. -/
inductive ReadAllResult where
  | ok (data : List Nat) (rem : List Bool)
  | insufficient
  | overflow
  deriving DecidableEq

/-- `read_all` into a zeroed `[u8; 8]`: copy `len` bits (stream order,
MSB first within each destination byte); overflow when the destination
cannot hold `len` bits. -/
def readAll (rem : List Bool) (len : Nat) : ReadAllResult :=
  if 64 < len then .overflow
  else if rem.length < len then .insufficient
  else .ok ((List.range 8).map fun j => packByte (((rem.take len).drop (8 * j)).take 8))
    (rem.drop len)

/-- Outcome of `Vlq::read`: success with the value and the remaining
stream, the recoverable `Insufficient` error, or a panic. -/
inductive ReadResult where
  | ok (v : Nat) (rem : List Bool)
  | insufficient
  | fatal
  deriving DecidableEq

/-- `Vlq::read` on a bit stream. -/
def vlqRead (bits : List Bool) : ReadResult :=
  match lenWidth (countZeros bits 0).1 with
  | none => .fatal
  | some w =>
    match readAll (countZeros bits 0).2 w with
    | .overflow => .fatal
    | .insufficient => .insufficient
    | .ok data rem => .ok (leBytesToNat (data.map reverseBits8)) rem

/-! ### Resumable reader: `AsyncReadVlq`

`Fill<[u8; 1]>` and `CappedFill<[u8; 9]>` (from `bitbuf`) are modelled
as the list of bits accumulated so far together with a bit capacity;
`fill_from` moves bits from the source until the target is full or the
source is exhausted. -/

inductive AsyncVlqState where
  | len
  | bytes
  | complete
  deriving DecidableEq

structure AsyncReadVlq where
  lenBits : List Bool
  fullBits : List Bool
  fullCap : Nat
  state : AsyncVlqState
  deriving DecidableEq

/-- `fill_from`: copy bits from `src` into an accumulator of capacity
`cap`.  Returns the new accumulator, the unconsumed source, and whether
the target is now full (`Err(Insufficient)` in the source otherwise). -/
def fillFrom (acc : List Bool) (cap : Nat) (src : List Bool) : List Bool × List Bool × Bool :=
  if src.length < cap - acc.length then (acc ++ src, [], false)
  else (acc ++ src.take (cap - acc.length), src.drop (cap - acc.length), true)

/-- Outcome of `AsyncReadVlq::poll_read`: `Ok` with the decoded value,
`Err(Insufficient)`, or a panic.  The mutated reader and the unconsumed
source bits are part of the outcome. -/
inductive PollResult where
  | ok (v : Nat) (r : AsyncReadVlq) (rest : List Bool)
  | insufficient (r : AsyncReadVlq) (rest : List Bool)
  | fatal
  deriving DecidableEq

/-- The `AsyncVlqState::Bytes` arm of `poll_read`: fill the payload
buffer, then run `Vlq::read` over its contents (the `expect` is a panic
when that read does not succeed). -/
def pollBytes (lenBits acc : List Bool) (cap : Nat) (src : List Bool) : PollResult :=
  let f := fillFrom acc cap src
  if f.2.2 then
    match vlqRead f.1 with
    | .ok v _ => .ok v ⟨lenBits, f.1, cap, .complete⟩ f.2.1
    | _ => .fatal
  else .insufficient ⟨lenBits, f.1, cap, .bytes⟩ f.2.1

/-- `AsyncReadVlq::poll_read`.  The `loop` is unrolled: the `Len` arm
falls through to the `Bytes` arm within the same call once the length
byte is complete. -/
def pollRead (r : AsyncReadVlq) (src : List Bool) : PollResult :=
  match r.state with
  | .complete => .fatal
  | .bytes => pollBytes r.lenBits r.fullBits r.fullCap src
  | .len =>
    let f := fillFrom r.lenBits 8 src
    if f.2.2 then
      if f.1.length < 8 then .fatal
      else
        let cap := decode_len (packByte f.1) * 8
        if 72 < cap then .fatal
        else
          let s := fillFrom [] cap f.1
          pollBytes f.1 s.1 cap f.2.1
    else .insufficient ⟨f.1, r.fullBits, r.fullCap, .len⟩ f.2.1

/-- `Vlq::async_read()`: the fresh reader. -/
def asyncRead : AsyncReadVlq := ⟨[], [], 0, .len⟩

/-- Drive a reader through a sequence of source chunks, retrying on
`Insufficient` with the next chunk, and stopping at the last chunk's
outcome (or at the first outcome that is not `Insufficient`). -/
def runChunks : AsyncReadVlq → List (List Bool) → PollResult
  | r, [] => .insufficient r []
  | r, c :: cs =>
    match pollRead r c with
    | .insufficient r' rest => if cs.isEmpty then .insufficient r' rest else runChunks r' cs
    | res => res

/-- The scratch bits a reader has accumulated so far: the length-byte
buffer while awaiting the length byte, the payload buffer afterwards. -/
def accBits (r : AsyncReadVlq) : List Bool :=
  match r.state with
  | .len => r.lenBits
  | _ => r.fullBits

/-- The bits `Vlq::from(n)` actually writes: `encode_len n` zero bits,
a terminator unless the class is 8, then the payload bits. -/
def encBody (c w n : Nat) : List Bool :=
  List.replicate c false ++ (if c = 8 then [] else [true]) ++ natBits w n

/-- Number of bits `Vlq::read` consumes when decoding `Vlq::from(n)`:
prefix zeros, terminator when the class is below 8, and the payload
width. -/
def consumedBits (n : Nat) : Nat :=
  (if encode_len n = 8 then 8 else encode_len n + 1) + (lenWidth (encode_len n)).getD 0

/-- The reader obtained from `Vlq::async_read()` after absorbing the
first `m` bits of the encoded stream `S`: filling the length byte while
`m < 8`, accumulating the payload afterwards. -/
def canonReader (S : List Bool) (m : Nat) : AsyncReadVlq :=
  if m < 8 then ⟨S.take m, [], 0, .len⟩ else ⟨S.take 8, S.take m, S.length, .bytes⟩

/-! ## Byte-level lemmas -/

theorem mirror8_congr {f g : Nat → Bool} (h : ∀ i, i < 8 → f i = g i) :
    mirror8 f = mirror8 g := by
  unfold mirror8
  rw [h 0 (by norm_num), h 1 (by norm_num), h 2 (by norm_num), h 3 (by norm_num),
    h 4 (by norm_num), h 5 (by norm_num), h 6 (by norm_num), h 7 (by norm_num)]

theorem mirror8_testBit (f : Nat → Bool) (k : Nat) (hk : k < 8) :
    (mirror8 f).testBit (7 - k) = f k := by
  have e : ∀ (b : Bool) (m : Nat), (if b then m else 0) = m * b.toNat := by
    intro b m; cases b <;> simp
  have hv : mirror8 f = 128 * (f 0).toNat + 64 * (f 1).toNat + 32 * (f 2).toNat +
      16 * (f 3).toNat + 8 * (f 4).toNat + 4 * (f 5).toNat + 2 * (f 6).toNat +
      1 * (f 7).toNat := by
    unfold mirror8; rw [e, e, e, e, e, e, e, e]
  have hb : ∀ b : Bool, b.toNat ≤ 1 := by intro b; cases b <;> simp
  have h0 := hb (f 0); have h1 := hb (f 1); have h2 := hb (f 2); have h3 := hb (f 3)
  have h4 := hb (f 4); have h5 := hb (f 5); have h6 := hb (f 6); have h7 := hb (f 7)
  have hfk : f k = decide ((f k).toNat = 1) := by cases f k <;> simp
  rw [hv, Nat.testBit_to_div_mod, hfk, decide_eq_decide]
  interval_cases k <;> omega

set_option maxRecDepth 100000 in
theorem reverseBits8_involutive : ∀ b < 256, reverseBits8 (reverseBits8 b) = b := by decide

theorem byteBits_mirror8 (f : Nat → Bool) :
    byteBits (mirror8 f) = [f 0, f 1, f 2, f 3, f 4, f 5, f 6, f 7] := by
  have e0 : (mirror8 f).testBit 7 = f 0 := mirror8_testBit f 0 (by norm_num)
  have e1 : (mirror8 f).testBit 6 = f 1 := mirror8_testBit f 1 (by norm_num)
  have e2 : (mirror8 f).testBit 5 = f 2 := mirror8_testBit f 2 (by norm_num)
  have e3 : (mirror8 f).testBit 4 = f 3 := mirror8_testBit f 3 (by norm_num)
  have e4 : (mirror8 f).testBit 3 = f 4 := mirror8_testBit f 4 (by norm_num)
  have e5 : (mirror8 f).testBit 2 = f 5 := mirror8_testBit f 5 (by norm_num)
  have e6 : (mirror8 f).testBit 1 = f 6 := mirror8_testBit f 6 (by norm_num)
  have e7 : (mirror8 f).testBit 0 = f 7 := mirror8_testBit f 7 (by norm_num)
  unfold byteBits
  rw [e0, e1, e2, e3, e4, e5, e6, e7]

/-- Bit `i < 8` of byte `j` of the little-endian representation of `n`. -/
theorem testBit_leByte (n j i : Nat) (hi : i < 8) :
    (n / 256 ^ j % 256).testBit i = n.testBit (8 * j + i) := by
  have h1 : n / 256 ^ j % 256 = (n >>> (8 * j)) % 2 ^ 8 := by
    rw [Nat.shiftRight_eq_div_pow, pow_mul]; norm_num
  rw [h1, Nat.testBit_mod_two_pow, Nat.testBit_shiftRight]
  simp [hi]

/-- Reassembling little-endian bytes of `m` recovers `m` modulo `256 ^ k`. -/
theorem leBytesToNat_leBytes (m : Nat) :
    ∀ k, leBytesToNat ((List.range k).map fun j => m / 256 ^ j % 256) = m % 256 ^ k := by
  intro k
  induction k generalizing m with
  | zero => simp [leBytesToNat, Nat.mod_one]
  | succ k ih =>
    rw [List.range_succ_eq_map, List.map_cons, List.map_map]
    have htail : (List.range k).map ((fun j => m / 256 ^ j % 256) ∘ Nat.succ) =
        (List.range k).map fun j => (m / 256) / 256 ^ j % 256 := by
      apply List.map_congr_left
      intro j _
      simp only [Function.comp_apply, Nat.succ_eq_add_one]
      rw [pow_succ', ← Nat.div_div_eq_div_mul]
    rw [htail]
    have hcons : ∀ (a : Nat) (l : List Nat), leBytesToNat (a :: l) = a + 256 * leBytesToNat l :=
      fun a l => rfl
    rw [hcons, ih, pow_succ', Nat.mod_mul]
    norm_num

/-- The encoder's payload source — `to_le_bytes` with each byte
bit-reversed, seen as a bit stream — is exactly the bits of `n`,
least significant first. -/
theorem bytesToBits_leBytes (n : Nat) :
    ∀ m, bytesToBits (((List.range m).map fun j => n / 256 ^ j % 256).map reverseBits8) =
      (List.range (8 * m)).map n.testBit := by
  intro m
  induction m with
  | zero => rfl
  | succ k ih =>
    rw [List.range_succ, show 8 * (k + 1) = 8 * k + 8 from by ring, List.range_add]
    simp only [List.map_append, List.map_cons, List.map_nil, bytesToBits, List.flatMap_append]
    rw [bytesToBits] at ih
    rw [ih]
    congr 1
    have hrev : reverseBits8 (n / 256 ^ k % 256) = mirror8 fun i => (n / 256 ^ k % 256).testBit i :=
      rfl
    have hbb := byteBits_mirror8 fun i => (n / 256 ^ k % 256).testBit i
    have hr8 : List.range 8 = [0, 1, 2, 3, 4, 5, 6, 7] := rfl
    simp only [List.flatMap_cons, List.flatMap_nil, List.append_nil, hrev, hbb, hr8, List.map_cons,
      List.map_nil]
    rw [testBit_leByte n k 0 (by norm_num), testBit_leByte n k 1 (by norm_num),
      testBit_leByte n k 2 (by norm_num), testBit_leByte n k 3 (by norm_num),
      testBit_leByte n k 4 (by norm_num), testBit_leByte n k 6 (by norm_num),
      testBit_leByte n k 5 (by norm_num), testBit_leByte n k 7 (by norm_num)]

/-- The payload bit stream written by `Vlq::from` is `natBits 64 n`. -/
theorem payload_eq_natBits (n : Nat) :
    bytesToBits ((u64LeBytes n).map reverseBits8) = natBits 64 n :=
  bytesToBits_leBytes n 8

theorem getD_take_drop (l : List Bool) (a i : Nat) (hi : i < 8) :
    ((l.drop a).take 8).getD i false = l.getD (a + i) false := by
  rw [List.getD_eq_getElem?_getD, List.getD_eq_getElem?_getD, List.getElem?_take,
    List.getElem?_drop]
  simp [hi]

theorem natBits_getD (w n k : Nat) (hn : n < 2 ^ w) :
    (natBits w n).getD k false = n.testBit k := by
  rw [natBits, List.getD_eq_getElem?_getD, List.getElem?_map]
  by_cases hk : k < w
  · rw [List.getElem?_range hk]; rfl
  · have h1 : (List.range w)[k]? = none := by
      rw [List.getElem?_eq_none_iff]
      simpa using Nat.le_of_not_lt hk
    have h2 : n.testBit k = false :=
      Nat.testBit_lt_two_pow
        (lt_of_lt_of_le hn (Nat.pow_le_pow_right (by norm_num) (Nat.le_of_not_lt hk)))
    rw [h1, h2]
    rfl

/-- `Vlq::read`'s payload interpretation (pack the payload bits into 8
bytes, reverse each byte, read little-endian) recovers `n`. -/
theorem decode_value (w n : Nat) (hw : w ≤ 64) (hn : n < 2 ^ w) :
    leBytesToNat (((List.range 8).map fun j =>
        packByte (((natBits w n).drop (8 * j)).take 8)).map reverseBits8) = n := by
  have hbyte : ∀ j, packByte (((natBits w n).drop (8 * j)).take 8) =
      reverseBits8 (n / 256 ^ j % 256) := by
    intro j
    rw [packByte, reverseBits8]
    apply mirror8_congr
    intro i hi
    rw [getD_take_drop _ _ _ hi, natBits_getD _ _ _ hn, testBit_leByte _ _ _ hi]
  simp only [hbyte, List.map_map]
  have hmap : ((List.range 8).map (reverseBits8 ∘ fun j => reverseBits8 (n / 256 ^ j % 256))) =
      (List.range 8).map fun j => n / 256 ^ j % 256 := by
    apply List.map_congr_left
    intro j _
    exact reverseBits8_involutive _ (Nat.mod_lt _ (by norm_num))
  rw [hmap, leBytesToNat_leBytes]
  have hlt : n < 256 ^ 8 := by
    calc n < 2 ^ w := hn
    _ ≤ 2 ^ 64 := Nat.pow_le_pow_right (by norm_num) hw
    _ ≤ 256 ^ 8 := by norm_num
  exact Nat.mod_eq_of_lt hlt

/-! ## Prefix-loop lemmas -/

/-- The zero-counting loop consumes `k` zeros and the terminating one
bit when the total count stays below the cap. -/
theorem countZeros_term (k : Nat) :
    ∀ (m : Nat) (rest : List Bool), m + k < 8 →
      countZeros (List.replicate k false ++ true :: rest) m = (m + k, rest) := by
  induction k with
  | zero => intro m rest _; simp [countZeros]
  | succ k ih =>
    intro m rest h
    rw [List.replicate_succ, List.cons_append]
    have h2 : ¬(m + 1 = 8) := by omega
    simp only [countZeros, Bool.false_eq_true, if_false, if_neg h2]
    rw [ih (m + 1) rest (by omega)]
    congr 1
    omega

/-- The zero-counting loop stops after 8 zeros without a terminator. -/
theorem countZeros_cap (k : Nat) :
    ∀ (m : Nat) (rest : List Bool), m + (k + 1) = 8 →
      countZeros (List.replicate (k + 1) false ++ rest) m = (8, rest) := by
  induction k with
  | zero =>
    intro m rest h
    have hm : m = 7 := by omega
    subst hm
    simp [countZeros]
  | succ k ih =>
    intro m rest h
    rw [List.replicate_succ, List.cons_append]
    have h2 : ¬(m + 1 = 8) := by omega
    simp only [countZeros, Bool.false_eq_true, if_false, if_neg h2]
    exact ih (m + 1) rest (by omega)

/-- On an all-zero stream shorter than the cap, the loop exhausts the
buffer and returns the number of zeros seen. -/
theorem countZeros_zeros (k : Nat) :
    ∀ (m : Nat), m + k < 8 → countZeros (List.replicate k false) m = (m + k, []) := by
  induction k with
  | zero => intro m _; simp [countZeros]
  | succ k ih =>
    intro m h
    rw [List.replicate_succ]
    have h2 : ¬(m + 1 = 8) := by omega
    simp only [countZeros, Bool.false_eq_true, if_false, if_neg h2]
    rw [ih (m + 1) (by omega)]
    congr 1
    omega

/-! ## Encoder closed form -/

theorem writeZeros_eq (k : Nat) :
    ∀ st : List Bool, st.length + k ≤ 72 →
      writeZeros st k = some (st ++ List.replicate k false) := by
  induction k with
  | zero => intro st _; simp [writeZeros]
  | succ k ih =>
    intro st h
    rw [writeZeros, writeBool, if_pos (by omega)]
    simp only [Option.bind_eq_bind, Option.some_bind]
    rw [ih (st ++ [false]) (by simp; omega)]
    simp [List.replicate_succ]

/-- Enumeration of the class-to-width table. -/
theorem lenWidth_cases {c w : Nat} (h : lenWidth c = some w) :
    c = 0 ∧ w = 7 ∨ c = 1 ∧ w = 14 ∨ c = 2 ∧ w = 20 ∨ c = 3 ∧ w = 28 ∨ c = 4 ∧ w = 35 ∨
    c = 5 ∧ w = 42 ∨ c = 6 ∧ w = 49 ∨ c = 7 ∧ w = 56 ∨ c = 8 ∧ w = 64 := by
  unfold lenWidth at h
  split_ifs at h <;> simp_all

/-- Numeric side conditions used throughout, derived from the table.
The written body has `c + (if c = 8 then 0 else 1) + w` bits; it fits in
the `c + 1` bytes the first byte announces, which fit in the backing
array. -/
theorem lenWidth_bounds {c w : Nat} (h : lenWidth c = some w) :
    c ≤ 8 ∧ 7 ≤ w ∧ w ≤ 64 ∧ 8 ≤ c + (if c = 8 then 0 else 1) + w ∧
      c + (if c = 8 then 0 else 1) + w ≤ 8 * (c + 1) ∧ 8 * (c + 1) ≤ 72 := by
  rcases lenWidth_cases h with h | h | h | h | h | h | h | h | h <;>
    obtain ⟨rfl, rfl⟩ := h <;> norm_num

theorem encBody_length (c w n : Nat) :
    (encBody c w n).length = c + (if c = 8 then 0 else 1) + w := by
  by_cases h8 : c = 8 <;> simp [encBody, natBits, h8] <;> omega

/-- The closed form of `Vlq::from`: prefix zeros, terminator unless the
class is 8, the low `w` bits of `n`, and zero padding up to 72 bits. -/
theorem vlqFrom_eq (n c w : Nat) (hc : encode_len n = c) (hw : lenWidth c = some w) :
    vlqFrom n = some (encBody c w n ++ List.replicate (72 - (encBody c w n).length) false) := by
  obtain ⟨hc8, hw7, hw64, hlo, hmid, hhi⟩ := lenWidth_bounds hw
  have h1 : writeZeros [] c = some (List.replicate c false) := by
    simpa using writeZeros_eq c [] (by simp; omega)
  have htake : (natBits 64 n).take w = natBits w n := by
    rw [natBits, natBits, ← List.map_take, List.take_range]
    rw [min_eq_left hw64]
  have hterm : writeTerm (List.replicate c false) c =
      some (List.replicate c false ++ (if c = 8 then [] else [true])) := by
    by_cases h8 : c = 8
    · simp [writeTerm, h8]
    · rw [writeTerm, if_pos h8, writeBool]
      simp only [List.length_replicate]
      rw [if_pos (by omega), if_neg h8]
  have hpay : writeBits (List.replicate c false ++ (if c = 8 then [] else [true]))
      (bytesToBits ((u64LeBytes n).map reverseBits8)) w = some (encBody c w n) := by
    rw [payload_eq_natBits, writeBits, if_pos]
    · rw [htake, encBody, List.append_assoc]
    · constructor
      · simpa [natBits] using hw64
      · by_cases h8 : c = 8 <;> simp [h8] <;> omega
  rw [vlqFrom, hc, h1]
  simp only [Option.bind_eq_bind, Option.some_bind]
  rw [hterm]
  simp only [Option.some_bind]
  rw [hw]
  simp only [Option.some_bind]
  rw [hpay]
  simp only [Option.some_bind, Option.pure_def]

/-! ## The first byte and the `Deref` slice -/

theorem getD_take_of_lt (l : List Bool) (i k : Nat) (hi : i < k) :
    (l.take k).getD i false = l.getD i false := by
  rw [List.getD_eq_getElem?_getD, List.getD_eq_getElem?_getD, List.getElem?_take, if_pos hi]

theorem getD_replicate_append_lt {c i : Nat} (hi : i < c) (rest : List Bool) :
    (List.replicate c false ++ rest).getD i false = false := by
  rw [List.getD_eq_getElem?_getD, List.getElem?_append_left (by simpa using hi),
    List.getElem?_replicate, if_pos hi]
  rfl

theorem getD_replicate_append_self (c : Nat) (b : Bool) (rest : List Bool) :
    (List.replicate c false ++ b :: rest).getD c false = b := by
  rw [List.getD_eq_getElem?_getD]
  rw [List.getElem?_append_right (by simp)]
  simp

/-- `u8::leading_zeros` of a packed byte whose first `c` stream bits are
zero and whose next bit is one. -/
theorem leadingZeros8_mirror8 {f : Nat → Bool} {c : Nat} (hc : c < 8)
    (h0 : ∀ i, i < c → f i = false) (h1 : f c = true) :
    leadingZeros8 (mirror8 f) = c := by
  have e0 : (mirror8 f).testBit 7 = f 0 := mirror8_testBit f 0 (by norm_num)
  have e1 : (mirror8 f).testBit 6 = f 1 := mirror8_testBit f 1 (by norm_num)
  have e2 : (mirror8 f).testBit 5 = f 2 := mirror8_testBit f 2 (by norm_num)
  have e3 : (mirror8 f).testBit 4 = f 3 := mirror8_testBit f 3 (by norm_num)
  have e4 : (mirror8 f).testBit 3 = f 4 := mirror8_testBit f 4 (by norm_num)
  have e5 : (mirror8 f).testBit 2 = f 5 := mirror8_testBit f 5 (by norm_num)
  have e6 : (mirror8 f).testBit 1 = f 6 := mirror8_testBit f 6 (by norm_num)
  have e7 : (mirror8 f).testBit 0 = f 7 := mirror8_testBit f 7 (by norm_num)
  unfold leadingZeros8
  rw [e0, e1, e2, e3, e4, e5, e6, e7]
  interval_cases c <;> simp_all

/-- `u8::leading_zeros` of an all-zero byte. -/
theorem leadingZeros8_mirror8_allZero {f : Nat → Bool} (h0 : ∀ i, i < 8 → f i = false) :
    leadingZeros8 (mirror8 f) = 8 := by
  have e0 : (mirror8 f).testBit 7 = f 0 := mirror8_testBit f 0 (by norm_num)
  have e1 : (mirror8 f).testBit 6 = f 1 := mirror8_testBit f 1 (by norm_num)
  have e2 : (mirror8 f).testBit 5 = f 2 := mirror8_testBit f 2 (by norm_num)
  have e3 : (mirror8 f).testBit 4 = f 3 := mirror8_testBit f 3 (by norm_num)
  have e4 : (mirror8 f).testBit 3 = f 4 := mirror8_testBit f 4 (by norm_num)
  have e5 : (mirror8 f).testBit 2 = f 5 := mirror8_testBit f 5 (by norm_num)
  have e6 : (mirror8 f).testBit 1 = f 6 := mirror8_testBit f 6 (by norm_num)
  have e7 : (mirror8 f).testBit 0 = f 7 := mirror8_testBit f 7 (by norm_num)
  unfold leadingZeros8
  rw [e0, e1, e2, e3, e4, e5, e6, e7]
  simp_all

/-- Unpacking a packed byte recovers the 8 source bits. -/
theorem byteBits_packByte (l : List Bool) (h : l.length = 8) : byteBits (packByte l) = l := by
  rcases l with _ | ⟨a, l⟩; · simp at h
  rcases l with _ | ⟨b, l⟩; · simp at h
  rcases l with _ | ⟨c, l⟩; · simp at h
  rcases l with _ | ⟨d, l⟩; · simp at h
  rcases l with _ | ⟨e, l⟩; · simp at h
  rcases l with _ | ⟨f, l⟩; · simp at h
  rcases l with _ | ⟨g, l⟩; · simp at h
  rcases l with _ | ⟨a8, l⟩; · simp at h
  have ht : l = [] := List.eq_nil_of_length_eq_zero (by simpa using h)
  subst ht
  rw [packByte, byteBits_mirror8]
  rfl

/-- Packing a bit stream into bytes and flattening the bytes back
recovers the stream, eight bits at a time. -/
theorem bytesToBits_pack (l : List Bool) :
    ∀ k, 8 * k ≤ l.length →
      bytesToBits ((List.range k).map fun j => packByte ((l.drop (8 * j)).take 8)) =
        l.take (8 * k) := by
  intro k
  induction k with
  | zero => intro _; simp [bytesToBits]
  | succ k ih =>
    intro h
    rw [List.range_succ, List.map_append, bytesToBits, List.flatMap_append]
    rw [bytesToBits] at ih
    rw [ih (by omega)]
    have hlen : ((l.drop (8 * k)).take 8).length = 8 := by
      simp
      omega
    have hbb := byteBits_packByte _ hlen
    simp only [List.map_cons, List.map_nil, List.flatMap_cons, List.flatMap_nil,
      List.append_nil, hbb]
    rw [show 8 * (k + 1) = 8 * k + 8 from by ring, List.take_add]

/-- The first byte of the encoded stream announces `c + 1` total bytes:
its leading-zero count is exactly the length class. -/
theorem decodeLen_prefix (c w n : Nat) (hw : lenWidth c = some w) (rest : List Bool) :
    decode_len (packByte ((encBody c w n ++ rest).take 8)) = c + 1 := by
  obtain ⟨hc8, hw7, hw64, hlo, hmid, hhi⟩ := lenWidth_bounds hw
  rw [decode_len, packByte]
  by_cases h8 : c = 8
  · subst h8
    have h1 : encBody 8 w n ++ rest = List.replicate 8 false ++ (natBits w n ++ rest) := by
      simp [encBody]
    rw [h1]
    have h0 : ∀ i, i < 8 →
        ((List.replicate 8 false ++ (natBits w n ++ rest)).take 8).getD i false = false := by
      intro i hi
      rw [getD_take_of_lt _ _ _ hi, getD_replicate_append_lt hi]
    rw [leadingZeros8_mirror8_allZero h0]
  · have h1 : encBody c w n ++ rest =
        List.replicate c false ++ (true :: (natBits w n ++ rest)) := by
      simp [encBody, h8]
    rw [h1]
    have hclt : c < 8 := by omega
    have h0 : ∀ i, i < c →
        ((List.replicate c false ++ (true :: (natBits w n ++ rest))).take 8).getD i false =
          false := by
      intro i hi
      rw [getD_take_of_lt _ _ _ (by omega), getD_replicate_append_lt hi]
    have hone : ((List.replicate c false ++ (true :: (natBits w n ++ rest))).take 8).getD c
        false = true := by
      rw [getD_take_of_lt _ _ _ (by omega), getD_replicate_append_self]
    rw [leadingZeros8_mirror8 hclt h0 hone]

/-- Closed form of the `Deref` slice of `Vlq::from(n)`: the written body
padded with zeros to the announced `c + 1` bytes, whose count is the
slice's byte length. -/
theorem vlqSliceBits_eq (n c w : Nat) (hc : encode_len n = c) (hw : lenWidth c = some w) :
    vlqSliceBits n =
      some (encBody c w n ++ List.replicate (8 * (c + 1) - (encBody c w n).length) false) ∧
    encodedByteLength n = c + 1 := by
  obtain ⟨hc8, hw7, hw64, hlo, hmid, hhi⟩ := lenWidth_bounds hw
  have hblen := encBody_length c w n
  have hbl : (encBody c w n).length ≤ 8 * (c + 1) := by omega
  have hble : (encBody c w n).length ≤ 72 := by omega
  have hfl : (encBody c w n ++ List.replicate (72 - (encBody c w n).length) false).length = 72 := by
    simp
    omega
  have hEnc := vlqFrom_eq n c w hc hw
  have hArr : vlqBytesArr n = some ((List.range 9).map fun j =>
      packByte (((encBody c w n ++ List.replicate (72 - (encBody c w n).length) false).drop
        (8 * j)).take 8)) := by
    rw [vlqBytesArr, hEnc]
    rfl
  have hhead : ((List.range 9).map fun j =>
      packByte (((encBody c w n ++ List.replicate (72 - (encBody c w n).length) false).drop
        (8 * j)).take 8)).headD 0 =
      packByte ((encBody c w n ++ List.replicate (72 - (encBody c w n).length) false).take 8) := by
    rfl
  have hdl := decodeLen_prefix c w n hw (List.replicate (72 - (encBody c w n).length) false)
  have htk9 : ∀ f : Nat → Nat, ((List.range 9).map f).take (c + 1) = (List.range (c + 1)).map f := by
    intro f
    rw [← List.map_take, List.take_range, min_eq_left (by omega)]
  have hderef : vlqDeref n = some ((List.range (c + 1)).map fun j =>
      packByte (((encBody c w n ++ List.replicate (72 - (encBody c w n).length) false).drop
        (8 * j)).take 8)) := by
    rw [vlqDeref, hArr, Option.map_some', hhead, hdl, htk9]
  constructor
  · rw [vlqSliceBits, hderef, Option.map_some']
    rw [bytesToBits_pack _ (c + 1) (by rw [hfl]; omega)]
    rw [show 8 * (c + 1) = (encBody c w n).length + (8 * (c + 1) - (encBody c w n).length)
      from by omega]
    rw [List.take_append, List.take_replicate, min_eq_left (by omega)]
    rw [show (encBody c w n).length + (8 * (c + 1) - (encBody c w n).length) -
      (encBody c w n).length = 8 * (c + 1) - (encBody c w n).length from by omega]
  · rw [encodedByteLength, hderef]
    simp

/-- `Vlq::read` on the written body followed by anything: success, the
value is recovered, and exactly the body bits are consumed. -/
theorem vlqRead_encBody (c w n : Nat) (hw : lenWidth c = some w) (hn : n < 2 ^ w)
    (extra : List Bool) : vlqRead (encBody c w n ++ extra) = .ok n extra := by
  obtain ⟨hc8, hw7, hw64, hlo, hmid, hhi⟩ := lenWidth_bounds hw
  have hcz : countZeros (encBody c w n ++ extra) 0 = (c, natBits w n ++ extra) := by
    by_cases h8 : c = 8
    · subst h8
      have h1 : encBody 8 w n ++ extra = List.replicate (7 + 1) false ++ (natBits w n ++ extra) := by
        simp [encBody]
      rw [h1, countZeros_cap 7 0 _ (by norm_num)]
    · have h1 : encBody c w n ++ extra =
          List.replicate c false ++ (true :: (natBits w n ++ extra)) := by
        simp [encBody, h8]
      rw [h1, countZeros_term c 0 _ (by omega)]
      simp
  unfold vlqRead
  rw [hcz]
  simp only [hw]
  have hnlen : (natBits w n).length = w := by simp [natBits]
  rw [readAll, if_neg (by omega), if_neg (by rw [List.length_append, hnlen]; omega)]
  have htw : (natBits w n ++ extra).take w = natBits w n := List.take_left' hnlen
  have hdw : (natBits w n ++ extra).drop w = extra := List.drop_left' hnlen
  rw [htw, hdw]
  simp only []
  rw [decode_value w n hw64 hn]

/-! ## Facts about `encode_len` -/

theorem encode_len_le8 (n : Nat) : encode_len n ≤ 8 := by
  unfold encode_len
  split_ifs <;> omega

theorem lenWidth_isSome : ∀ c ≤ 8, (lenWidth c).isSome := by decide

theorem lenWidth_getD_mono : ∀ a ≤ 8, ∀ b ≤ 8, a ≤ b →
    (lenWidth a).getD 0 ≤ (lenWidth b).getD 0 := by decide

/-- The chosen class's payload width holds the value. -/
theorem encode_len_upper (n : Nat) (hn : n < 2 ^ 64) :
    n < 2 ^ (lenWidth (encode_len n)).getD 0 := by
  unfold encode_len
  split_ifs <;> norm_num [lenWidth] <;> omega

/-- A positive class is only chosen when the previous class's payload
width cannot hold the value. -/
theorem encode_len_lower (n : Nat) (h1 : 1 ≤ encode_len n) :
    2 ^ (lenWidth (encode_len n - 1)).getD 0 ≤ n := by
  unfold encode_len at *
  split_ifs at * <;> norm_num [lenWidth] at * <;> omega

theorem encode_len_spec (n : Nat) (hn : n < 2 ^ 64) :
    ∃ w, lenWidth (encode_len n) = some w ∧ n < 2 ^ w := by
  obtain ⟨w, hw⟩ := Option.isSome_iff_exists.mp (lenWidth_isSome _ (encode_len_le8 n))
  refine ⟨w, hw, ?_⟩
  have := encode_len_upper n hn
  rwa [hw] at this

theorem encode_len_mono {n1 n2 : Nat} (h2 : n2 < 2 ^ 64) (h : n1 ≤ n2) :
    encode_len n1 ≤ encode_len n2 := by
  by_contra hlt
  have hc : encode_len n2 < encode_len n1 := by omega
  have hl := encode_len_lower n1 (by omega)
  have hu := encode_len_upper n2 h2
  have hwm : (lenWidth (encode_len n2)).getD 0 ≤ (lenWidth (encode_len n1 - 1)).getD 0 :=
    lenWidth_getD_mono _ (encode_len_le8 n2) _ (by have := encode_len_le8 n1; omega) (by omega)
  have hpow : (2 : Nat) ^ (lenWidth (encode_len n2)).getD 0 ≤
      2 ^ (lenWidth (encode_len n1 - 1)).getD 0 :=
    Nat.pow_le_pow_right (by norm_num) hwm
  omega

/-- `consumedBits` agrees with the length of the written body. -/
theorem consumedBits_eq (n c w : Nat) (hc : encode_len n = c) (hw : lenWidth c = some w) :
    consumedBits n = (encBody c w n).length := by
  rw [consumedBits, hc, hw, encBody_length]
  by_cases h8 : c = 8 <;> simp [h8]

/-- The zero padding after the consumed body, per class: one bit for
class 2, none otherwise. -/
theorem padBits_eq (n c w : Nat) (hw : lenWidth c = some w) :
    8 * (c + 1) - (encBody c w n).length = if c = 2 then 1 else 0 := by
  have hbl := encBody_length c w n
  rcases lenWidth_cases hw with h | h | h | h | h | h | h | h | h <;>
    obtain ⟨rfl, rfl⟩ := h <;> rw [hbl] <;> norm_num

/-! ## Truncation analysis -/

theorem take_replicate_prefix (c : Nat) (l : List Bool) (k : Nat) (hk : k ≤ c) :
    (List.replicate c false ++ l).take k = List.replicate k false := by
  rw [List.take_append_of_le_length (by simp; omega), List.take_replicate, min_eq_left hk]

theorem take_replicate_append (c : Nat) (l : List Bool) (k : Nat) (hk : c ≤ k) :
    (List.replicate c false ++ l).take k = List.replicate c false ++ l.take (k - c) := by
  rw [List.take_append_eq_append_take, List.take_replicate, min_eq_right hk,
    List.length_replicate]

/-- `Vlq::read` on an all-zero stream of at most 8 bits: the prefix loop
ends (by exhaustion or by the cap) and the payload read falls short. -/
theorem vlqRead_zeros (k : Nat) (hk : k ≤ 8) :
    vlqRead (List.replicate k false) = ReadResult.insufficient := by
  have hcz : countZeros (List.replicate k false) 0 = (k, []) := by
    rcases Nat.lt_or_ge k 8 with h | h
    · simpa using countZeros_zeros k 0 (by omega)
    · have hk8 : k = 8 := by omega
      subst hk8
      simpa using countZeros_cap 7 0 [] (by norm_num)
  unfold vlqRead
  rw [hcz]
  obtain ⟨wk, hwk⟩ := Option.isSome_iff_exists.mp (lenWidth_isSome k hk)
  obtain ⟨_, hwk7, hwk64, _, _, _⟩ := lenWidth_bounds hwk
  simp only [hwk]
  rw [readAll, if_neg (by omega), if_pos (by simp; omega)]

/-- Truncating the written body strictly before its end always makes
`Vlq::read` report `Insufficient`. -/
theorem vlqRead_truncated (c w n : Nat) (hw : lenWidth c = some w) (k : Nat)
    (hk : k < (encBody c w n).length) :
    vlqRead ((encBody c w n).take k) = ReadResult.insufficient := by
  obtain ⟨hc8, hw7, hw64, hlo, hmid, hhi⟩ := lenWidth_bounds hw
  have hbl := encBody_length c w n
  have hnlen : (natBits w n).length = w := by simp [natBits]
  by_cases h8 : c = 8
  · subst h8
    norm_num at hbl
    have hb : encBody 8 w n = List.replicate 8 false ++ natBits w n := by
      simp [encBody]
    by_cases hk8 : k < 8
    · rw [hb, take_replicate_prefix 8 _ k (by omega)]
      exact vlqRead_zeros k (by omega)
    · rw [hb, take_replicate_append 8 _ k (by omega)]
      have htl : ((natBits w n).take (k - 8)).length = k - 8 := by
        simp [hnlen]
        omega
      have hcz := countZeros_cap 7 0 ((natBits w n).take (k - 8)) (by norm_num)
      unfold vlqRead
      rw [show (7 : Nat) + 1 = 8 from rfl] at hcz
      rw [hcz]
      simp only [hw]
      rw [readAll, if_neg (by omega), if_pos (by rw [htl]; omega)]
  · have hb : encBody c w n = List.replicate c false ++ (true :: natBits w n) := by
      simp [encBody, h8]
    simp only [if_neg h8] at hbl
    by_cases hkc : k ≤ c
    · rw [hb, take_replicate_prefix c _ k hkc]
      exact vlqRead_zeros k (by omega)
    · rw [hb, take_replicate_append c _ k (by omega),
        show k - c = (k - c - 1) + 1 from by omega, List.take_succ_cons]
      have htl : ((natBits w n).take (k - c - 1)).length = k - c - 1 := by
        simp [hnlen]
        omega
      have hcz := countZeros_term c 0 ((natBits w n).take (k - c - 1)) (by omega)
      unfold vlqRead
      rw [hcz]
      simp only [Nat.zero_add, hw]
      rw [readAll, if_neg (by omega), if_pos (by rw [htl]; omega)]

/-! ## Claim theorems -/

/-- C1: Round-trip — for every `u64` value `v`, encoding `v` with
`Vlq::from` and then decoding the resulting bits (the `Deref` slice of
the `Vlq`) with `Vlq::read` returns `Ok(v)`. -/
theorem c1_round_trip (n : Nat) (hn : n < 2 ^ 64) :
    ∃ s rem, vlqSliceBits n = some s ∧ vlqRead s = ReadResult.ok n rem := by
  obtain ⟨w, hw, hnw⟩ := encode_len_spec n hn
  obtain ⟨hs, _⟩ := vlqSliceBits_eq n (encode_len n) w rfl hw
  exact ⟨_, _, hs, vlqRead_encBody _ w n hw hnw _⟩

theorem c1_round_trip_witness :
    (1389766487781 : Nat) < 2 ^ 64 ∧
      ∃ s rem, vlqSliceBits 1389766487781 = some s ∧
        vlqRead s = ReadResult.ok 1389766487781 rem :=
  ⟨by norm_num, c1_round_trip 1389766487781 (by norm_num)⟩

/-- C3: Class boundary exactness — the encoded byte length (the length
of the `Deref` slice) is `encode_len n + 1`, which is 1 on `[0, 2^7)`,
2 on `[2^7, 2^14)`, 3 on `[2^14, 2^20)`, 4 on `[2^20, 2^28)`, 5 on
`[2^28, 2^35)`, 6 on `[2^35, 2^42)`, 7 on `[2^42, 2^49)`, 8 on
`[2^49, 2^56)` and 9 on `[2^56, 2^64)`. -/
theorem c3_class_boundaries (n : Nat) (hn : n < 2 ^ 64) :
    encodedByteLength n = encode_len n + 1 ∧
    (n < 2 ^ 7 → encodedByteLength n = 1) ∧
    (2 ^ 7 ≤ n → n < 2 ^ 14 → encodedByteLength n = 2) ∧
    (2 ^ 14 ≤ n → n < 2 ^ 20 → encodedByteLength n = 3) ∧
    (2 ^ 20 ≤ n → n < 2 ^ 28 → encodedByteLength n = 4) ∧
    (2 ^ 28 ≤ n → n < 2 ^ 35 → encodedByteLength n = 5) ∧
    (2 ^ 35 ≤ n → n < 2 ^ 42 → encodedByteLength n = 6) ∧
    (2 ^ 42 ≤ n → n < 2 ^ 49 → encodedByteLength n = 7) ∧
    (2 ^ 49 ≤ n → n < 2 ^ 56 → encodedByteLength n = 8) ∧
    (2 ^ 56 ≤ n → encodedByteLength n = 9) := by
  obtain ⟨w, hw, hnw⟩ := encode_len_spec n hn
  obtain ⟨_, hl⟩ := vlqSliceBits_eq n (encode_len n) w rfl hw
  have hcl : ∀ c, encode_len n = c → encodedByteLength n = c + 1 := fun c hc => by
    rw [hl, hc]
  refine ⟨hl, fun h1 => hcl 0 ?_, fun h1 h2 => hcl 1 ?_, fun h1 h2 => hcl 2 ?_,
    fun h1 h2 => hcl 3 ?_, fun h1 h2 => hcl 4 ?_, fun h1 h2 => hcl 5 ?_,
    fun h1 h2 => hcl 6 ?_, fun h1 h2 => hcl 7 ?_, fun h1 => hcl 8 ?_⟩ <;>
    (unfold encode_len; split_ifs <;> omega)

theorem c3_class_boundaries_witness :
    (16384 : Nat) < 2 ^ 64 ∧ (2 ^ 14 ≤ 16384 ∧ 16384 < 2 ^ 20) ∧
      encodedByteLength 16384 = 3 :=
  ⟨by norm_num, ⟨by norm_num, by norm_num⟩,
    (c3_class_boundaries 16384 (by norm_num)).2.2.2.1 (by norm_num) (by norm_num)⟩

/-- C7: Encoding never fails — for every `u64` value, `Vlq::from`
returns normally: no write `unwrap` and no invalid-length panic fires,
so the `Option`-modelled encoder is `some`. -/
theorem c7_encode_total (n : Nat) (hn : n < 2 ^ 64) : (vlqFrom n).isSome := by
  obtain ⟨w, hw, _⟩ := encode_len_spec n hn
  rw [vlqFrom_eq n _ w rfl hw]
  rfl

theorem c7_encode_total_witness : (2 ^ 64 - 1 : Nat) < 2 ^ 64 ∧ (vlqFrom (2 ^ 64 - 1)).isSome :=
  ⟨by norm_num, c7_encode_total _ (by norm_num)⟩

/-- C9: Length monotonicity — for `u64` values `v1 ≤ v2`, the encoded
byte length of `Vlq::from(v1)` is at most that of `Vlq::from(v2)`. -/
theorem c9_length_monotonicity (n1 n2 : Nat) (h2 : n2 < 2 ^ 64) (h12 : n1 ≤ n2) :
    encodedByteLength n1 ≤ encodedByteLength n2 := by
  obtain ⟨w1, hw1, _⟩ := encode_len_spec n1 (by omega)
  obtain ⟨w2, hw2, _⟩ := encode_len_spec n2 h2
  obtain ⟨_, hl1⟩ := vlqSliceBits_eq n1 _ w1 rfl hw1
  obtain ⟨_, hl2⟩ := vlqSliceBits_eq n2 _ w2 rfl hw2
  rw [hl1, hl2]
  have := encode_len_mono h2 h12
  omega

theorem c9_length_monotonicity_witness :
    (130 : Nat) < 2 ^ 64 ∧ (127 : Nat) ≤ 130 ∧
      encodedByteLength 127 ≤ encodedByteLength 130 :=
  ⟨by norm_num, by norm_num, c9_length_monotonicity 127 130 (by norm_num) (by norm_num)⟩

/-- C5: No over-read — `Vlq::read` on the encoding of `v` followed by
arbitrary unrelated bits returns `Ok(v)`, leaves the unrelated bits at
the end of the stream untouched (`pad ++ junk` remains, `pad` being the
encoding's own zero padding), and consumes `consumedBits v` bits, never
more than 8 times the encoded byte length. -/
theorem c5_no_overread (n : Nat) (hn : n < 2 ^ 64) (junk : List Bool) :
    ∃ s pad, vlqSliceBits n = some s ∧ s.length = 8 * encodedByteLength n ∧
      vlqRead (s ++ junk) = ReadResult.ok n (pad ++ junk) ∧
      pad.length + consumedBits n = s.length ∧
      consumedBits n ≤ 8 * encodedByteLength n := by
  obtain ⟨w, hw, hnw⟩ := encode_len_spec n hn
  obtain ⟨hc8, hw7, hw64, hlo, hmid, hhi⟩ := lenWidth_bounds hw
  obtain ⟨hs, hl⟩ := vlqSliceBits_eq n (encode_len n) w rfl hw
  have hcb := consumedBits_eq n _ w rfl hw
  have hblen := encBody_length (encode_len n) w n
  refine ⟨_, List.replicate (8 * (encode_len n + 1) - (encBody (encode_len n) w n).length) false,
    hs, ?_, ?_, ?_, ?_⟩
  · rw [hl]
    simp
    omega
  · rw [List.append_assoc]
    exact vlqRead_encBody _ w n hw hnw _
  · rw [hcb]
    simp
    omega
  · rw [hl, hcb]
    omega

theorem c5_no_overread_witness :
    (16384 : Nat) < 2 ^ 64 ∧
      ∃ s pad, vlqSliceBits 16384 = some s ∧ s.length = 8 * encodedByteLength 16384 ∧
        vlqRead (s ++ [true, true, false]) = ReadResult.ok 16384 (pad ++ [true, true, false]) ∧
        pad.length + consumedBits 16384 = s.length ∧
        consumedBits 16384 ≤ 8 * encodedByteLength 16384 :=
  ⟨by norm_num, c5_no_overread 16384 (by norm_num) [true, true, false]⟩

/-- C10: Exact bits consumed by the synchronous decoder — `Vlq::read` on
the encoding of `n` succeeds leaving exactly one unconsumed zero bit for
class 2 and none for every other class, so it consumes
`c + 1 + payload_width c` bits for `c < 8` and `8 + 64` bits for
`c = 8`; for class 2 that is one bit fewer than the encoded byte length
in bits. -/
theorem c10_exact_consumption (n : Nat) (hn : n < 2 ^ 64) :
    ∃ s, vlqSliceBits n = some s ∧
      vlqRead s =
        ReadResult.ok n (List.replicate (if encode_len n = 2 then 1 else 0) false) ∧
      consumedBits n = (if encode_len n = 8 then 8 + 64
        else encode_len n + 1 + (lenWidth (encode_len n)).getD 0) ∧
      s.length = consumedBits n + (if encode_len n = 2 then 1 else 0) := by
  obtain ⟨w, hw, hnw⟩ := encode_len_spec n hn
  obtain ⟨hs, hl⟩ := vlqSliceBits_eq n (encode_len n) w rfl hw
  have hcb := consumedBits_eq n _ w rfl hw
  have hpad := padBits_eq n (encode_len n) w hw
  rw [hpad] at hs
  refine ⟨_, hs, vlqRead_encBody _ w n hw hnw _, ?_, ?_⟩
  · rw [consumedBits, hw]
    rcases lenWidth_cases hw with h | h | h | h | h | h | h | h | h <;>
      obtain ⟨hc, rfl⟩ := h <;> simp [hc]
  · rw [hcb]
    simp

theorem c10_exact_consumption_witness :
    (16384 : Nat) < 2 ^ 64 ∧ encode_len 16384 = 2 ∧ consumedBits 16384 = 23 ∧
      ∃ s, vlqSliceBits 16384 = some s ∧
        vlqRead s = ReadResult.ok 16384
          (List.replicate (if encode_len 16384 = 2 then 1 else 0) false) ∧
        consumedBits 16384 = (if encode_len 16384 = 8 then 8 + 64
          else encode_len 16384 + 1 + (lenWidth (encode_len 16384)).getD 0) ∧
        s.length = consumedBits 16384 + (if encode_len 16384 = 2 then 1 else 0) :=
  ⟨by norm_num, by decide, by decide, c10_exact_consumption 16384 (by norm_num)⟩

/-- C4 counterexample: for `v = 2^14` (class 2, encoded in 3 bytes = 24
bits), truncating the encoding at bit position 23 — strictly before the
full encoded bit length 24 — makes `Vlq::read` return `Ok(16384)`, not
`Err(Insufficient)` as the claim states. -/
theorem c4_counterexample :
    (vlqSliceBits 16384).map (fun s => (s.length, vlqRead (s.take 23))) =
      some (24, ReadResult.ok 16384 []) := by
  have hc : encode_len 16384 = 2 := by norm_num [encode_len]
  have hw : lenWidth 2 = some 20 := rfl
  obtain ⟨hs, hl⟩ := vlqSliceBits_eq 16384 2 20 hc hw
  rw [hs, Option.map_some']
  have hbl : (encBody 2 20 16384).length = 23 := by rw [encBody_length]; norm_num
  have hpad : 8 * (2 + 1) - (encBody 2 20 16384).length = 1 := by rw [hbl]
  rw [hpad]
  rw [List.take_left' hbl]
  have hread := vlqRead_encBody 2 20 16384 hw (by norm_num) []
  rw [List.append_nil] at hread
  rw [hread]
  simp [hbl]

/-- C4 (amended): truncating the encoding of `v` at any bit position
strictly before the `consumedBits v` bits the decoder actually consumes
(this is the full encoded length except for class 2, where it is one bit
less) makes `Vlq::read` return `Err(Insufficient)` — never a wrong value
and never a panic. -/
theorem c4_insufficient_recoverable (n : Nat) (hn : n < 2 ^ 64) (k : Nat)
    (hk : k < consumedBits n) :
    ∃ s, vlqSliceBits n = some s ∧ vlqRead (s.take k) = ReadResult.insufficient := by
  obtain ⟨w, hw, hnw⟩ := encode_len_spec n hn
  obtain ⟨hs, hl⟩ := vlqSliceBits_eq n (encode_len n) w rfl hw
  have hcb := consumedBits_eq n _ w rfl hw
  refine ⟨_, hs, ?_⟩
  rw [List.take_append_of_le_length (by omega)]
  exact vlqRead_truncated _ w n hw k (by omega)

theorem c4_insufficient_recoverable_witness :
    (16384 : Nat) < 2 ^ 64 ∧ (22 : Nat) < consumedBits 16384 ∧
      ∃ s, vlqSliceBits 16384 = some s ∧ vlqRead (s.take 22) = ReadResult.insufficient :=
  ⟨by norm_num, by decide, c4_insufficient_recoverable 16384 (by norm_num) 22 (by decide)⟩

/-! ## Resumable-reader lemmas -/

theorem fillFrom_short (acc : List Bool) (cap : Nat) (src : List Bool)
    (h : acc.length + src.length < cap) :
    fillFrom acc cap src = (acc ++ src, [], false) := by
  rw [fillFrom, if_pos (by omega)]

theorem fillFrom_full (acc : List Bool) (cap : Nat) (src : List Bool)
    (h : cap ≤ acc.length + src.length) :
    fillFrom acc cap src =
      (acc ++ src.take (cap - acc.length), src.drop (cap - acc.length), true) := by
  rw [fillFrom, if_neg (by omega)]

theorem fillFrom_nil_fst (cap : Nat) (l : List Bool) (h : l.length ≤ cap) :
    (fillFrom [] cap l).1 = l := by
  rw [fillFrom]
  split_ifs with h1
  · simp
  · dsimp only
    simp only [List.nil_append, List.length_nil, Nat.sub_zero]
    exact List.take_of_length_le h

/-- C8: Driving the reader past Complete is fatal, not a reported
error — `poll_read` on a reader in the `Complete` state panics
(`PollResult.fatal`), never returning `Ok` or `Err(Insufficient)`. -/
theorem c8_poll_after_complete (r : AsyncReadVlq) (src : List Bool)
    (h : r.state = AsyncVlqState.complete) : pollRead r src = PollResult.fatal := by
  obtain ⟨lb, fb, cap, st⟩ := r
  cases st
  · simp at h
  · simp at h
  · rfl

theorem c8_poll_after_complete_witness :
    (⟨[], [], 0, AsyncVlqState.complete⟩ : AsyncReadVlq).state = AsyncVlqState.complete ∧
      pollRead ⟨[], [], 0, AsyncVlqState.complete⟩ [] = PollResult.fatal :=
  ⟨rfl, c8_poll_after_complete _ [] rfl⟩

/-- C6 counterexample: feeding the first 8 bits of the 16-bit encoding
of 128 to a fresh reader returns `Err(Insufficient)`, yet the state tag
changes during that very call: it enters in `Len` and exits in `Bytes`
(the length byte completed, the payload fill could not). -/
theorem c6_counterexample :
    asyncRead.state = AsyncVlqState.len ∧
    (vlqSliceBits 128).map (fun s => pollRead asyncRead (s.take 8)) =
      some (PollResult.insufficient
        ⟨[false, true, false, false, false, false, false, false],
         [false, true, false, false, false, false, false, false], 16,
         AsyncVlqState.bytes⟩ []) := by
  constructor
  · rfl
  · decide

/-- C6 (amended): whenever `poll_read` returns `Err(Insufficient)` (on a
reader whose length scratch holds at most its 8-bit capacity), the
entire source is consumed and appended to the reader's accumulated
scratch bits — nothing is lost — and the reader ends in the non-Complete
state whose fill could not complete: the state tag is unchanged unless
the length byte completed during this very call, in which case it
advances from `Len` to `Bytes` (seeding the payload buffer with the
accumulated bits). -/
theorem c6_insufficient_preserves (r : AsyncReadVlq) (src : List Bool) (r' : AsyncReadVlq)
    (rest : List Bool) (hlb : r.lenBits.length ≤ 8)
    (h : pollRead r src = PollResult.insufficient r' rest) :
    accBits r' = accBits r ++ src ∧ rest = [] ∧ r'.state ≠ AsyncVlqState.complete ∧
      (r'.state = r.state ∨
        (r.state = AsyncVlqState.len ∧ r'.state = AsyncVlqState.bytes)) := by
  obtain ⟨lb, fb, cap, st⟩ := r
  simp only at hlb
  cases st
  case complete => simp [pollRead] at h
  case bytes =>
    rw [show pollRead ⟨lb, fb, cap, AsyncVlqState.bytes⟩ src = pollBytes lb fb cap src from rfl,
      pollBytes] at h
    by_cases hd : cap ≤ fb.length + src.length
    · rw [fillFrom_full _ _ _ hd] at h
      dsimp only at h
      rcases hv : vlqRead (fb ++ src.take (cap - fb.length)) with ⟨v, rem⟩ | _ | _ <;>
        rw [hv] at h <;> simp at h
    · rw [fillFrom_short _ _ _ (by omega)] at h
      dsimp only at h
      injection h with h1 h2
      subst h1
      subst h2
      refine ⟨by simp [accBits], rfl, by simp, Or.inl rfl⟩
  case len =>
    rw [pollRead] at h
    dsimp only at h
    by_cases hd : 8 ≤ lb.length + src.length
    · rw [fillFrom_full _ _ _ hd] at h
      dsimp only at h
      have hfl : (lb ++ src.take (8 - lb.length)).length = 8 := by
        rw [List.length_append, List.length_take]
        omega
      rw [hfl, if_neg (lt_irrefl 8)] at h
      set cap2 := decode_len (packByte (lb ++ src.take (8 - lb.length))) * 8 with hcap2
      have hcap2ge : 8 ≤ cap2 := by
        rw [hcap2, decode_len]
        omega
      by_cases h72 : 72 < cap2
      · rw [if_pos h72] at h
        simp at h
      · rw [if_neg h72] at h
        rw [pollBytes] at h
        rw [fillFrom_nil_fst cap2 _ (by omega)] at h
        by_cases hd2 : cap2 ≤ (lb ++ src.take (8 - lb.length)).length +
            (src.drop (8 - lb.length)).length
        · rw [fillFrom_full _ _ _ hd2] at h
          dsimp only at h
          rcases hv : vlqRead ((lb ++ src.take (8 - lb.length)) ++
              (src.drop (8 - lb.length)).take
                (cap2 - (lb ++ src.take (8 - lb.length)).length)) with ⟨v, rem⟩ | _ | _ <;>
            rw [hv] at h <;> simp at h
        · rw [fillFrom_short _ _ _ (by omega)] at h
          dsimp only at h
          injection h with h1 h2
          subst h1
          subst h2
          refine ⟨?_, rfl, by simp, Or.inr ⟨rfl, rfl⟩⟩
          simp only [accBits, List.append_assoc]
          rw [List.take_append_drop]
    · rw [fillFrom_short _ _ _ (by omega)] at h
      dsimp only at h
      injection h with h1 h2
      subst h1
      subst h2
      refine ⟨by simp [accBits], rfl, by simp, Or.inl rfl⟩

theorem c6_insufficient_preserves_witness :
    asyncRead.lenBits.length ≤ 8 ∧
    pollRead asyncRead [false] =
      PollResult.insufficient ⟨[false], [], 0, AsyncVlqState.len⟩ [] ∧
    (accBits ⟨[false], [], 0, AsyncVlqState.len⟩ = accBits asyncRead ++ [false] ∧
      ([] : List Bool) = [] ∧
      (⟨[false], [], 0, AsyncVlqState.len⟩ : AsyncReadVlq).state ≠ AsyncVlqState.complete ∧
      ((⟨[false], [], 0, AsyncVlqState.len⟩ : AsyncReadVlq).state = asyncRead.state ∨
        (asyncRead.state = AsyncVlqState.len ∧
          (⟨[false], [], 0, AsyncVlqState.len⟩ : AsyncReadVlq).state =
            AsyncVlqState.bytes))) :=
  ⟨by decide, by decide,
    c6_insufficient_preserves asyncRead [false] _ _ (by decide) (by decide)⟩

/-! ## Chunked-feeding analysis for the resumable reader

`canonReader S m` is the reader state after a fresh reader has absorbed
the first `m` bits of the encoded stream `S`.  One `poll_read` with the
next `src` bits either stays short of `S.length` (the announced total,
`decode_len` of the first byte times 8) and reports `Insufficient` from
the canonical next state, or reaches it and completes. -/

theorem pollRead_canon_insufficient (S : List Bool) (m : Nat) (src : List Bool)
    (hS8 : decode_len (packByte (S.take 8)) * 8 = S.length) (hL72 : S.length ≤ 72)
    (h8L : 8 ≤ S.length)
    (hsrc : S.take m ++ src = S.take (m + src.length))
    (hmk : m + src.length < S.length) :
    pollRead (canonReader S m) src =
      PollResult.insufficient (canonReader S (m + src.length)) [] := by
  have hlm : (S.take m).length = m := by rw [List.length_take]; omega
  by_cases hm8 : m < 8
  · rw [canonReader, if_pos hm8, pollRead]
    dsimp only
    by_cases hd : m + src.length < 8
    · rw [fillFrom_short _ _ _ (by rw [hlm]; omega)]
      dsimp only
      rw [if_neg Bool.false_ne_true, canonReader, if_pos hd, hsrc]
    · rw [fillFrom_full _ _ _ (by rw [hlm]; omega)]
      dsimp only
      rw [if_pos rfl, hlm]
      have hf1 : S.take m ++ src.take (8 - m) = S.take 8 := by
        have h1 := congrArg (List.take 8) hsrc
        rw [List.take_append_eq_append_take, List.take_take,
          min_eq_right (le_of_lt hm8), hlm, List.take_take, min_eq_left (by omega)] at h1
        exact h1
      rw [hf1]
      have hl8 : (S.take 8).length = 8 := by rw [List.length_take]; omega
      rw [hl8]
      rw [if_neg (lt_irrefl 8)]
      rw [hS8]
      rw [if_neg (by omega)]
      rw [fillFrom_nil_fst _ _ (by rw [hl8]; omega)]
      rw [pollBytes]
      rw [fillFrom_short _ _ _ (by rw [hl8, List.length_drop]; omega)]
      dsimp only
      rw [if_neg Bool.false_ne_true, canonReader, if_neg (by omega)]
      have hf2 : S.take 8 ++ src.drop (8 - m) = S.take (m + src.length) := by
        rw [← hf1, List.append_assoc, List.take_append_drop, hsrc]
      rw [hf2]
  · rw [canonReader, if_neg hm8, pollRead]
    dsimp only
    rw [pollBytes, fillFrom_short _ _ _ (by rw [hlm]; omega)]
    dsimp only
    rw [if_neg Bool.false_ne_true, canonReader, if_neg (by omega), hsrc]

theorem pollRead_canon_complete (S : List Bool) (m : Nat) (src : List Bool) (n : Nat)
    (rem0 : List Bool)
    (hS8 : decode_len (packByte (S.take 8)) * 8 = S.length) (hL72 : S.length ≤ 72)
    (h8L : 8 ≤ S.length) (hv : vlqRead S = ReadResult.ok n rem0)
    (hm : m < S.length) (hsrc : S.take m ++ src = S) :
    pollRead (canonReader S m) src =
      PollResult.ok n ⟨S.take 8, S, S.length, AsyncVlqState.complete⟩ [] := by
  have hlm : (S.take m).length = m := by rw [List.length_take]; omega
  have hslen : m + src.length = S.length := by
    have := congrArg List.length hsrc
    rw [List.length_append, hlm] at this
    exact this
  by_cases hm8 : m < 8
  · rw [canonReader, if_pos hm8, pollRead]
    dsimp only
    rw [fillFrom_full _ _ _ (by rw [hlm]; omega)]
    dsimp only
    rw [if_pos rfl, hlm]
    have hf1 : S.take m ++ src.take (8 - m) = S.take 8 := by
      have h1 := congrArg (List.take 8) hsrc
      rw [List.take_append_eq_append_take, List.take_take,
        min_eq_right (le_of_lt hm8), hlm] at h1
      exact h1
    rw [hf1]
    have hl8 : (S.take 8).length = 8 := by rw [List.length_take]; omega
    rw [hl8]
    rw [if_neg (lt_irrefl 8)]
    rw [hS8]
    rw [if_neg (by omega)]
    rw [fillFrom_nil_fst _ _ (by rw [hl8]; omega)]
    rw [pollBytes]
    rw [fillFrom_full _ _ _ (by rw [hl8, List.length_drop]; omega)]
    dsimp only
    rw [if_pos rfl, hl8]
    have hdl : (src.drop (8 - m)).length = S.length - 8 := by
      rw [List.length_drop]
      omega
    have hta : (src.drop (8 - m)).take (S.length - 8) = src.drop (8 - m) :=
      List.take_of_length_le (by rw [hdl])
    have htd : (src.drop (8 - m)).drop (S.length - 8) = [] :=
      List.drop_eq_nil_of_le (by rw [hdl])
    rw [hta, htd]
    have hfull : S.take 8 ++ src.drop (8 - m) = S := by
      rw [← hf1, List.append_assoc, List.take_append_drop, hsrc]
    rw [hfull, hv]
  · rw [canonReader, if_neg hm8, pollRead]
    dsimp only
    rw [pollBytes, fillFrom_full _ _ _ (by rw [hlm]; omega)]
    dsimp only
    rw [if_pos rfl, hlm]
    have hta : src.take (S.length - m) = src := List.take_of_length_le (by omega)
    have htd : src.drop (S.length - m) = [] := List.drop_eq_nil_of_le (by omega)
    rw [hta, htd, hsrc, hv]

/-- A concatenation that forms a prefix of `S` splits into prefixes. -/
theorem append_eq_take (X Y S : List Bool) (h : X ++ Y = S.take (X.length + Y.length)) :
    X = S.take X.length := by
  have h1 := congrArg (List.take X.length) h
  rw [List.take_left, List.take_take, min_eq_left (by omega)] at h1
  exact h1

/-- Feeding chunks that together stay strictly short of the announced
total leaves the reader in the canonical intermediate state, every call
returning `Insufficient`. -/
theorem runChunks_insufficient (S : List Bool)
    (hS8 : decode_len (packByte (S.take 8)) * 8 = S.length) (hL72 : S.length ≤ 72)
    (h8L : 8 ≤ S.length) :
    ∀ (cs : List (List Bool)) (m : Nat),
      S.take m ++ cs.flatten = S.take (m + cs.flatten.length) →
      m + cs.flatten.length < S.length →
      runChunks (canonReader S m) cs =
        PollResult.insufficient (canonReader S (m + cs.flatten.length)) [] := by
  intro cs
  induction cs with
  | nil =>
    intro m _ _
    simp [runChunks]
  | cons c cs ih =>
    intro m hjoin hlt
    rw [List.flatten_cons] at hjoin hlt ⊢
    rw [List.length_append] at hlt ⊢
    have hlm : (S.take m).length = m := by rw [List.length_take]; omega
    have hXlen : (S.take m ++ c).length = m + c.length := by rw [List.length_append, hlm]
    rw [List.length_append] at hjoin
    have hsrc : S.take m ++ c = S.take (m + c.length) := by
      have h0 : (S.take m ++ c) ++ cs.flatten =
          S.take ((S.take m ++ c).length + cs.flatten.length) := by
        rw [List.append_assoc, hXlen,
          show m + c.length + cs.flatten.length = m + (c.length + cs.flatten.length) from by
            omega]
        exact hjoin
      have h1 := append_eq_take _ _ _ h0
      rwa [hXlen] at h1
    have hstep := pollRead_canon_insufficient S m c hS8 hL72 h8L hsrc (by omega)
    rw [runChunks, hstep]
    dsimp only
    cases cs with
    | nil =>
      rw [if_pos (show ([] : List (List Bool)).isEmpty = true from rfl)]
      rw [show m + (c.length + ([] : List (List Bool)).flatten.length) = m + c.length from by
        simp]
    | cons c2 cs2 =>
      rw [if_neg (by simp)]
      have hjoin2 : S.take (m + c.length) ++ (c2 :: cs2).flatten =
          S.take (m + c.length + (c2 :: cs2).flatten.length) := by
        rw [← hsrc, List.append_assoc,
          show m + c.length + (c2 :: cs2).flatten.length =
            m + (c.length + (c2 :: cs2).flatten.length) from by omega]
        exact hjoin
      rw [show m + (c.length + (c2 :: cs2).flatten.length) =
        m + c.length + (c2 :: cs2).flatten.length from by omega]
      exact ih (m + c.length) hjoin2 (by omega)

/-- Feeding chunks that together supply exactly the announced total
completes the reader with the synchronously decoded value. -/
theorem runChunks_ok (S : List Bool) (n : Nat) (rem0 : List Bool)
    (hS8 : decode_len (packByte (S.take 8)) * 8 = S.length) (hL72 : S.length ≤ 72)
    (h8L : 8 ≤ S.length) (hv : vlqRead S = ReadResult.ok n rem0) :
    ∀ (cs : List (List Bool)) (m : Nat), (∀ ch ∈ cs, ch ≠ []) →
      S.take m ++ cs.flatten = S → m < S.length →
      runChunks (canonReader S m) cs =
        PollResult.ok n ⟨S.take 8, S, S.length, AsyncVlqState.complete⟩ [] := by
  intro cs
  induction cs with
  | nil =>
    intro m _ hjoin hm
    exfalso
    rw [List.flatten_nil, List.append_nil] at hjoin
    have := congrArg List.length hjoin
    rw [List.length_take] at this
    omega
  | cons c cs ih =>
    intro m hne hjoin hm
    rw [List.flatten_cons] at hjoin
    have hlm : (S.take m).length = m := by rw [List.length_take]; omega
    cases cs with
    | nil =>
      rw [List.flatten_nil, List.append_nil] at hjoin
      have hstep := pollRead_canon_complete S m c n rem0 hS8 hL72 h8L hv hm hjoin
      rw [runChunks, hstep]
    | cons c2 cs2 =>
      have hc2 : c2 ≠ [] := hne c2 (by simp)
      have hc2len : 0 < (c2 :: cs2).flatten.length := by
        rw [List.flatten_cons, List.length_append]
        have := List.length_pos.mpr hc2
        omega
      have hlen : m + (c.length + (c2 :: cs2).flatten.length) = S.length := by
        have := congrArg List.length hjoin
        rw [List.length_append, List.length_append, hlm] at this
        omega
      have hXlen : (S.take m ++ c).length = m + c.length := by rw [List.length_append, hlm]
      have hsrc : S.take m ++ c = S.take (m + c.length) := by
        have h0 : (S.take m ++ c) ++ (c2 :: cs2).flatten =
            S.take ((S.take m ++ c).length + (c2 :: cs2).flatten.length) := by
          rw [List.append_assoc, hXlen,
            show m + c.length + (c2 :: cs2).flatten.length =
              m + (c.length + (c2 :: cs2).flatten.length) from by omega,
            hlen, List.take_length]
          exact hjoin
        have h1 := append_eq_take _ _ _ h0
        rwa [hXlen] at h1
      have hstep := pollRead_canon_insufficient S m c hS8 hL72 h8L hsrc (by omega)
      rw [runChunks, hstep]
      dsimp only
      rw [if_neg (by simp)]
      apply ih (m + c.length) (fun ch hch => hne ch (by simp [hch]))
      · rw [← hsrc, List.append_assoc]
        exact hjoin
      · omega

/-- C2: Resumable equivalence — for every `u64` value `v` and every way
of splitting the encoded stream into non-empty chunks, feeding the
chunks one `poll_read` call at a time to a fresh `AsyncReadVlq`
(retrying on `Insufficient`) returns `Ok(v)`, the same value the
synchronous `Vlq::read` yields, with the reader in `Complete`; and for
every proper prefix of the chunk sequence the reader is still not in
`Complete` and the last call reported `Insufficient` — completion
happens exactly once, exactly when the final chunk supplies the last
bit. -/
theorem c2_resumable_equivalence (n : Nat) (hn : n < 2 ^ 64) (S : List Bool)
    (hS : vlqSliceBits n = some S) (chunks : List (List Bool))
    (hne : ∀ ch ∈ chunks, ch ≠ []) (hjoin : chunks.flatten = S) :
    (∃ r', runChunks asyncRead chunks = PollResult.ok n r' [] ∧
        r'.state = AsyncVlqState.complete ∧ ∃ rem, vlqRead S = ReadResult.ok n rem) ∧
    (∀ pre suf, chunks = pre ++ suf → suf ≠ [] →
      ∃ r', runChunks asyncRead pre = PollResult.insufficient r' [] ∧
        r'.state ≠ AsyncVlqState.complete) := by
  obtain ⟨w, hw, hnw⟩ := encode_len_spec n hn
  obtain ⟨hc8, hw7, hw64, hlo, hmid, hhi⟩ := lenWidth_bounds hw
  obtain ⟨hs, hl⟩ := vlqSliceBits_eq n (encode_len n) w rfl hw
  rw [hS] at hs
  injection hs with hs
  have hblen := encBody_length (encode_len n) w n
  have hSlen : S.length = 8 * (encode_len n + 1) := by
    rw [hs]
    simp
    omega
  have hS8 : decode_len (packByte (S.take 8)) * 8 = S.length := by
    rw [hs, decodeLen_prefix _ w n hw _, List.length_append, List.length_replicate]
    omega
  have hvS : vlqRead S = ReadResult.ok n (List.replicate
      (8 * (encode_len n + 1) - (encBody (encode_len n) w n).length) false) := by
    rw [hs]
    exact vlqRead_encBody (encode_len n) w n hw hnw _
  have h8L : 8 ≤ S.length := by omega
  have hL72 : S.length ≤ 72 := by omega
  have hc0 : canonReader S 0 = asyncRead := rfl
  constructor
  · refine ⟨⟨S.take 8, S, S.length, AsyncVlqState.complete⟩, ?_, rfl, ⟨_, hvS⟩⟩
    rw [← hc0]
    exact runChunks_ok S n _ hS8 hL72 h8L hvS chunks 0 hne (by simpa using hjoin) (by omega)
  · intro pre suf hps hsuf
    have hpj : pre.flatten ++ suf.flatten = S := by
      rw [← List.flatten_append, ← hps, hjoin]
    have hsufne : suf.flatten ≠ [] := by
      rcases suf with _ | ⟨q, suf'⟩
      · exact absurd rfl hsuf
      · rw [List.flatten_cons]
        have hq : q ≠ [] := hne q (by rw [hps]; simp)
        intro hcontra
        exact hq (List.append_eq_nil.mp hcontra).1
    have hsum : pre.flatten.length + suf.flatten.length = S.length := by
      have := congrArg List.length hpj
      rwa [List.length_append] at this
    have hlt : pre.flatten.length < S.length := by
      have := List.length_pos.mpr hsufne
      omega
    have hpre : pre.flatten = S.take pre.flatten.length := by
      apply append_eq_take _ suf.flatten _
      rw [hsum, List.take_length]
      exact hpj
    have hjoin0 : S.take 0 ++ pre.flatten = S.take (0 + pre.flatten.length) := by
      simpa using hpre
    have hrun := runChunks_insufficient S hS8 hL72 h8L pre 0 hjoin0 (by simpa using hlt)
    refine ⟨canonReader S (0 + pre.flatten.length), ?_, ?_⟩
    · rw [← hc0]
      exact hrun
    · rw [canonReader]
      split_ifs <;> simp

theorem c2_resumable_equivalence_witness :
    (128 : Nat) < 2 ^ 64 ∧
    vlqSliceBits 128 = some [false, true, false, false, false, false, false, false,
      false, true, false, false, false, false, false, false] ∧
    (∀ ch ∈ [[false, true, false],
        [false, false, false, false, false, false, true, false, false],
        [false, false, false, false]], ch ≠ ([] : List Bool)) ∧
    ([[false, true, false],
      [false, false, false, false, false, false, true, false, false],
      [false, false, false, false]] : List (List Bool)).flatten =
      [false, true, false, false, false, false, false, false,
        false, true, false, false, false, false, false, false] ∧
    ((∃ r', runChunks asyncRead [[false, true, false],
        [false, false, false, false, false, false, true, false, false],
        [false, false, false, false]] = PollResult.ok 128 r' [] ∧
        r'.state = AsyncVlqState.complete ∧
        ∃ rem, vlqRead [false, true, false, false, false, false, false, false,
          false, true, false, false, false, false, false, false] = ReadResult.ok 128 rem) ∧
      (∀ pre suf, ([[false, true, false],
          [false, false, false, false, false, false, true, false, false],
          [false, false, false, false]] : List (List Bool)) = pre ++ suf → suf ≠ [] →
        ∃ r', runChunks asyncRead pre = PollResult.insufficient r' [] ∧
          r'.state ≠ AsyncVlqState.complete)) :=
  ⟨by norm_num, by decide, by decide, by decide,
    c2_resumable_equivalence 128 (by norm_num) _ (by decide) _ (by decide) (by decide)⟩

end BitbufVlq
